import Mathlib

/-!
Verification development for the `collate` collation engine.

The Rust sources are shallowly embedded here:
* nom-style parsers become functions `List Char → Option (α × List Char)`
  (all error variants of nom collapse to `none`; no `cut`-style unrecoverable
  errors occur in the sources, and the one `Err::Incomplete` result, raised by
  the sort-key bracket check, is only ever produced in positions where an
  ordinary error leads to the same accept/reject verdict of the surrounding
  parser, since the row alternatives cannot recover after a bracket).
* machine integers (`u16`, `u32`) become `Nat` with explicit bound checks at
  the points where Rust's `from_str_radix` can overflow.
* the `BTreeMap` collation table becomes an association list with last-wins
  insertion and first-match lookup.
* repetition combinators (`many0`, `many1`, `separated_list*`, `many_m_n`)
  carry explicit fuel; they are always invoked with fuel strictly larger than
  the input length, which suffices because, exactly as in nom, an iteration
  that consumes no input is rejected (nom's infinite-loop guard).
-/

/-- Parser type: the embedding of `nom`'s `IResult<&str, T>` for complete
input.  `none` is any parse error, `some (a, rest)` is success with
remaining input `rest`. -/
def P (α : Type) : Type := List Char → Option (α × List Char)

/-- Embeds `nom::combinator::map`. -/
def mapP (p : P α) (f : α → β) : P β := fun i =>
  match p i with
  | none => none
  | some (a, rest) => some (f a, rest)

/-- Embeds `nom::combinator::map_opt` (also models `map_res`, whose only error
sources here are `from_str_radix` failures). -/
def mapOptP (p : P α) (f : α → Option β) : P β := fun i =>
  match p i with
  | none => none
  | some (a, rest) =>
    match f a with
    | none => none
    | some b => some (b, rest)

/-- Embeds `nom::combinator::value`. -/
def valueP (b : β) (p : P α) : P β := mapP p (fun _ => b)

/-- Embeds `nom::branch::alt` for two alternatives; nested for more. -/
def altP (p q : P α) : P α := fun i =>
  match p i with
  | some r => some r
  | none => q i

/-- Embeds `nom::combinator::opt`. -/
def optP (p : P α) : P (Option α) := fun i =>
  match p i with
  | some (a, rest) => some (some a, rest)
  | none => some (none, i)

/-- Embeds `nom::character::complete::char`. -/
def charP (c : Char) : P Char := fun i =>
  match i with
  | [] => none
  | x :: rest => if x = c then some (c, rest) else none

/-- Embeds `nom::character::complete::satisfy`. -/
def satisfyP (f : Char → Bool) : P Char := fun i =>
  match i with
  | [] => none
  | x :: rest => if f x then some (x, rest) else none

/-- Embeds `nom::character::complete::one_of`. -/
def oneOfP (s : List Char) : P Char := satisfyP (fun c => s.contains c)

/-- Embeds `nom::character::complete::none_of`. -/
def noneOfP (s : List Char) : P Char := satisfyP (fun c => !s.contains c)

/-- Embeds `nom::character::complete::anychar`. -/
def anycharP : P Char := fun i =>
  match i with
  | [] => none
  | x :: rest => some (x, rest)

/-- Embeds `nom::bytes::complete::tag`. -/
def tagP (s : List Char) : P (List Char) := fun i =>
  if s.isPrefixOf i then some (s, i.drop s.length) else none

/-- Embeds `nom::bytes::complete::is_not`: the longest nonempty run of characters
outside `s`; fails when the run is empty. -/
def isNotP (s : List Char) : P (List Char) := fun i =>
  let run := i.takeWhile (fun c => !s.contains c)
  if run.isEmpty then none else some (run, i.drop run.length)

/-- Embeds `nom::combinator::recognize`: returns the consumed slice.  All parsers in
this development consume a prefix of their input, so the slice is recovered
from the length difference. -/
def recognizeP (p : P α) : P (List Char) := fun i =>
  match p i with
  | none => none
  | some (_, rest) => some (i.take (i.length - rest.length), rest)

/-- Embeds `nom::combinator::all_consuming`. -/
def allConsumingP (p : P α) : P α := fun i =>
  match p i with
  | none => none
  | some (a, rest) => if rest.isEmpty then some (a, rest) else none

/-- Greedy repetition loop shared by `many0`/`many1`.  As in nom, an
iteration that consumes no input is an error (infinite-loop guard); hence
fuel larger than the input length is never exhausted. -/
def manyAux (p : P α) : Nat → P (List α)
  | 0 => fun _ => none
  | fuel + 1 => fun i =>
    match p i with
    | none => some ([], i)
    | some (a, j) =>
      if j.length < i.length then
        match manyAux p fuel j with
        | none => none
        | some (as, rest) => some (a :: as, rest)
      else none

/-- Embeds `nom::multi::many0`. -/
def many0P (p : P α) : P (List α) := fun i => manyAux p (i.length + 1) i

/-- Embeds `nom::multi::many1`. -/
def many1P (p : P α) : P (List α) := fun i =>
  match p i with
  | none => none
  | some (a, j) =>
    match manyAux p (j.length + 1) j with
    | none => none
    | some (as, rest) => some (a :: as, rest)

/-- Bounded repetition, at most `n` items (loop of `nom::multi::many_m_n`). -/
def manyUpToAux (p : P α) : Nat → P (List α)
  | 0 => fun i => some ([], i)
  | n + 1 => fun i =>
    match p i with
    | none => some ([], i)
    | some (a, j) =>
      if j.length < i.length then
        match manyUpToAux p n j with
        | none => none
        | some (as, rest) => some (a :: as, rest)
      else none

/-- Embeds `nom::multi::many_m_n`. -/
def manyMN (m n : Nat) (p : P α) : P (List α) := fun i =>
  match manyUpToAux p n i with
  | none => none
  | some (as, rest) => if m ≤ as.length then some (as, rest) else none

/-- Embeds `(sep elem)*` loop of `nom::multi::separated_list0/1`; a failing `elem`
backtracks over the already-consumed `sep`.  As in nom, a separator that
succeeds without consuming any input is a hard error
(`ErrorKind::SeparatedList`), checked before the element is attempted; this
fires for zero-width separators such as `comment`.  (Every element parser in
this development consumes input on success, so nothing else can loop.) -/
def sepListAux (sep : P β) (p : P α) : Nat → P (List α)
  | 0 => fun _ => none
  | fuel + 1 => fun i =>
    match sep i with
    | none => some ([], i)
    | some (_, j) =>
      if j.length = i.length then none
      else
        match p j with
        | none => some ([], i)
        | some (a, k) =>
          match sepListAux sep p fuel k with
          | none => none
          | some (as, rest) => some (a :: as, rest)

/-- Embeds `nom::multi::separated_list1`. -/
def separatedList1 (sep : P β) (p : P α) : P (List α) := fun i =>
  match p i with
  | none => none
  | some (a, j) =>
    match sepListAux sep p (j.length + 1) j with
    | none => none
    | some (as, rest) => some (a :: as, rest)

/-- Embeds `nom::multi::separated_list0`. -/
def separatedList0 (sep : P β) (p : P α) : P (List α) := fun i =>
  match p i with
  | none => some ([], i)
  | some (a, j) =>
    match sepListAux sep p (j.length + 1) j with
    | none => none
    | some (as, rest) => some (a :: as, rest)

/-- Embeds `nom::multi::count`: exactly `n` repetitions. -/
def countP (p : P α) : Nat → P (List α)
  | 0 => fun i => some ([], i)
  | n + 1 => fun i =>
    match p i with
    | none => none
    | some (a, j) =>
      match countP p n j with
      | none => none
      | some (as, rest) => some (a :: as, rest)

/-- Embeds `nom::character::complete::space0` (`' '` and `'\t'`). -/
def isNomSpace (c : Char) : Bool := c = ' ' || c = '\t'

def space0P : P (List Char) := many0P (satisfyP isNomSpace)

def space1P : P (List Char) := many1P (satisfyP isNomSpace)

/-- Embeds `nom::character::complete::multispace0/1` character class. -/
def isNomMultispace (c : Char) : Bool := c = ' ' || c = '\t' || c = '\r' || c = '\n'

def multispace0P : P (List Char) := many0P (satisfyP isNomMultispace)

def multispace1P : P (List Char) := many1P (satisfyP isNomMultispace)

/-- Embeds `nom::character::complete::line_ending`: `"\n"` or `"\r\n"`. -/
def lineEndingP : P (List Char) := altP (tagP ['\n']) (tagP ['\r', '\n'])

/-- Embeds `nom::character::complete::not_line_ending`: everything before the next
`'\r'`/`'\n'`; a `'\r'` not followed by `'\n'` is an error. -/
def notLineEndingP : P (List Char) := fun i =>
  let run := i.takeWhile (fun c => c ≠ '\r' && c ≠ '\n')
  let rest := i.drop run.length
  match rest with
  | '\r' :: tail =>
    match tail with
    | '\n' :: _ => some (run, rest)
    | _ => none
  | _ => some (run, rest)

/-- ASCII alphanumeric class of `nom::character::complete::alphanumeric1`. -/
def isAsciiAlphanumeric (c : Char) : Bool :=
  decide (('0' ≤ c ∧ c ≤ '9') ∨ ('a' ≤ c ∧ c ≤ 'z') ∨ ('A' ≤ c ∧ c ≤ 'Z'))

def alphanumeric1P : P (List Char) := many1P (satisfyP isAsciiAlphanumeric)

/-- ASCII hex-digit class (`nom::character::is_hex_digit`). -/
def isAsciiHexDigit (c : Char) : Bool :=
  decide (('0' ≤ c ∧ c ≤ '9') ∨ ('a' ≤ c ∧ c ≤ 'f') ∨ ('A' ≤ c ∧ c ≤ 'F'))

/-- Embeds `nom::character::complete::hex_digit1`. -/
def hexDigit1P : P (List Char) := many1P (satisfyP isAsciiHexDigit)

/-- Numeric value of a hex digit. -/
def hexVal (c : Char) : Nat :=
  if '0' ≤ c ∧ c ≤ '9' then c.toNat - 48
  else if 'a' ≤ c ∧ c ≤ 'f' then c.toNat - 87
  else if 'A' ≤ c ∧ c ≤ 'F' then c.toNat - 55
  else 0

/-- Numeric value of a hex-digit string (mathematical, no overflow). -/
def hexNat (s : List Char) : Nat := s.foldl (fun acc c => acc * 16 + hexVal c) 0

/-- Embeds `u16::from_str_radix(s, 16)` on an all-hex string: errors on overflow. -/
def hexToU16 (s : List Char) : Option Nat :=
  if hexNat s < 65536 then some (hexNat s) else none

/-- Embeds `u32::from_str_radix(s, 16).ok().and_then(char::from_u32)`. -/
def hexToChar (s : List Char) : Option Char :=
  let v := hexNat s
  if v < 4294967296 ∧ v.isValidChar then some (Char.ofNat v) else none

/-! ## DUCET table parser (src/lib.rs) -/

/-- Embeds `CollationElement` (src/lib.rs).  The weight fields are named
`symbol`/`diacritic`/`case` in `lib.rs` and `primary`/`secondary`/`tertiary`
in the twin definition used by `parse_cet.rs`; the latter names are used here
(`case` is a Lean keyword).  The `variable` flag is named `var` here
(`variable` is a Lean keyword). -/
structure CollationElement where
  var : Bool
  primary : Nat
  secondary : Nat
  tertiary : Nat
  deriving DecidableEq, Repr

/-- Embeds `take_sep` (src/lib.rs): `space0 ';' space0`. -/
def take_sep : P Unit := fun i =>
  match space0P i with
  | none => none
  | some (_, j) =>
    match charP ';' j with
    | none => none
    | some (_, k) => valueP () space0P k

/-- Embeds `parse_char` (src/lib.rs): a run of hex digits decoded as a scalar. -/
def parse_char : P Char :=
  mapOptP (recognizeP (many1P (oneOfP "0123456789abcdefABCDEF".toList))) hexToChar

/-- Embeds `parse_element` (src/lib.rs): space-separated code points, concatenated. -/
def parse_element : P (List Char) :=
  mapP (separatedList1 (charP ' ') parse_char) (fun v => v)

/-- Embeds `parse_variable` (src/lib.rs): `*` or `.`. -/
def parse_variable : P Bool :=
  mapP (altP (tagP ['*']) (tagP ['.'])) (fun c => c = ['*'])

/-- Embeds `parse_hex` (src/lib.rs): a hex run as `u16` (overflow is an error). -/
def parse_hex : P Nat :=
  mapOptP (recognizeP (many1P (oneOfP "0123456789abcdefABCDEF".toList))) hexToU16

/-- The bracket part of `parse_sortkey` (src/lib.rs): `[` variable-flag
dot-separated hex fields `]`, before the three-level arity check. -/
def sortkeyRaw : P (Bool × List Nat) := fun i =>
  match tagP ['['] i with
  | none => none
  | some (_, j) =>
    match parse_variable j with
    | none => none
    | some (var, k) =>
      match separatedList1 (tagP ['.']) parse_hex k with
      | none => none
      | some (levels, l) =>
        match tagP [']'] l with
        | none => none
        | some (_, rest) => some ((var, levels), rest)

/-- Embeds `parse_sortkey` (src/lib.rs): the bracket, accepted only with exactly
three weight fields (otherwise `Err(Incomplete)` in the source, an error). -/
def parse_sortkey : P CollationElement := fun i =>
  match sortkeyRaw i with
  | none => none
  | some ((var, levels), rest) =>
    if levels.length = 3 then
      some (⟨var, levels.getD 0 0, levels.getD 1 0, levels.getD 2 0⟩, rest)
    else none

/-- The first three steps of `parse_row` (src/lib.rs): code points, `;`
separator, one or more sort-key brackets. -/
def rowHead : P (List Char × List CollationElement) := fun i =>
  match parse_element i with
  | none => none
  | some (char_points, j) =>
    match take_sep j with
    | none => none
    | some (_, k) =>
      match many1P parse_sortkey k with
      | none => none
      | some (key, l) => some ((char_points, key), l)

/-- The terminal-comment part of `parse_row` (src/lib.rs):
`many0(char(' ')) char('#') is_not("\n") tag("\n")`. -/
def rowTerm : P Unit := fun i =>
  match many0P (charP ' ') i with
  | none => none
  | some (_, j) =>
    match charP '#' j with
    | none => none
    | some (_, k) =>
      match isNotP ['\n'] k with
      | none => none
      | some (_, l) => valueP () (tagP ['\n']) l

/-- Embeds `parse_row` (src/lib.rs). -/
def parse_row : P (List Char × List CollationElement) := fun i =>
  match rowHead i with
  | none => none
  | some (r, j) =>
    match rowTerm j with
    | none => none
    | some (_, rest) => some (r, rest)

/-- The table data: `BTreeMap<String, Vec<CollationElement>>` embedded as an
association list with first-match lookup. -/
def Table : Type := List (List Char × List CollationElement)

instance : DecidableEq Table := inferInstanceAs (DecidableEq (List _))

/-- Embeds `BTreeMap::get` on the embedded table. -/
def Table.get (t : Table) (s : List Char) : Option (List CollationElement) :=
  match t with
  | [] => none
  | (k, v) :: rest => if k = s then some v else Table.get rest s

/-- Embeds `BTreeMap::insert`: replaces the value of an existing key, else appends
(last occurrence wins). -/
def Table.insert (t : Table) (s : List Char) (v : List CollationElement) : Table :=
  match t with
  | [] => [(s, v)]
  | (k, w) :: rest => if k = s then (s, v) :: rest else (k, w) :: Table.insert rest s v

/-- One alternative of the line parser inside `CollationElementTable::from`
(src/lib.rs): skipped lines yield `none`, a data row yields its entry. -/
def tableLine : P (Option (List Char × List CollationElement)) :=
  altP (valueP none (tagP ['\n']))
    (altP
      (valueP none (fun i =>
        match space0P i with
        | none => none
        | some (_, j) =>
          match charP '#' j with
          | none => none
          | some (_, k) =>
            match optP (isNotP ['\n']) k with
            | none => none
            | some (_, l) => charP '\n' l))
      (altP
        (valueP none (fun i =>
          match tagP "@version".toList i with
          | none => none
          | some (_, j) =>
            match isNotP ['\n'] j with
            | none => none
            | some (_, k) => charP '\n' k))
        (altP
          (valueP none (fun i =>
            match tagP "@implicitweights".toList i with
            | none => none
            | some (_, j) =>
              match isNotP ['\n'] j with
              | none => none
              | some (_, k) => charP '\n' k))
          (mapP parse_row (fun r => some r)))))

/-- Embeds `CollationElementTable::from` (src/lib.rs): `all_consuming(many1(...))`
over the line alternatives, inserting each data row in order. -/
def tableFrom (i : List Char) : Option Table :=
  match allConsumingP (many1P tableLine) i with
  | none => none
  | some (items, _) =>
    some (items.foldl
      (fun t item =>
        match item with
        | none => t
        | some (k, v) => Table.insert t k v) [])

/-! ## Collation-element stream and sort key (src/lib.rs)

The stream consumes the NFD-normalized character sequence; normalization
itself is the external `unic-normal` dependency, so the embedding takes the
normalized `List Char` as input. -/

/-- The `while let Some(&c) = self.normalized.peek()` loop of
`CollationElements::next` (src/lib.rs): grow `s` one character at a time
while the extended string is still a table key; stop (without consuming) at
the first failure. -/
def extend (t : Table) : List Char → List CollationElement → List Char →
    List CollationElement × List Char
  | _, elem, [] => (elem, [])
  | s, elem, c :: rest =>
    match t.get (s ++ [c]) with
    | some e => extend t (s ++ [c]) e rest
    | none => (elem, c :: rest)

/-- The full iteration of `CollationElements` as a list of emitted batches;
`fuel` bounds the number of characters that can be consumed. -/
def elementsAux (t : Table) : Nat → List Char → List (List CollationElement)
  | 0, _ => []
  | _, [] => []
  | fuel + 1, c :: rest =>
    match t.get [c] with
    | none => []
    | some e =>
      (extend t [c] e rest).1 :: elementsAux t fuel (extend t [c] e rest).2

/-- All batches emitted by `CollationElements::from(table, s)` (src/lib.rs);
the iterator ends (yields no further item) when the leading character has no
single-character entry. -/
def elements (t : Table) (cs : List Char) : List (List CollationElement) :=
  elementsAux t cs.length cs

/-- Embeds `SortKey` (src/lib.rs). -/
structure SortKey where
  symbols : List Nat
  diacritics : List Nat
  cases : List Nat
  deriving DecidableEq, Repr

/-- The loop body of `generate_sort_key` (src/lib.rs), including its
`continue` statements: a zero weight at one level skips the remaining levels
of the same element. -/
def sortKeyStep (key : SortKey) (elem : CollationElement) : SortKey :=
  if elem.primary ≠ 0 then
    let key := { key with symbols := key.symbols ++ [elem.primary] }
    if elem.secondary ≠ 0 then
      let key := { key with diacritics := key.diacritics ++ [elem.secondary] }
      if elem.tertiary ≠ 0 then
        { key with cases := key.cases ++ [elem.tertiary] }
      else key
    else key
  else key

/-- Embeds `generate_sort_key` (src/lib.rs) on the NFD-normalized input. -/
def generate_sort_key (t : Table) (cs : List Char) : SortKey :=
  ((elements t cs).flatten).foldl sortKeyStep ⟨[], [], []⟩

/-- Formalization of the claim's notion "maximal table-covered prefix": the
longest prefix of `cs` that is itself a key of the table. -/
def longestKeyPrefix (t : Table) (cs : List Char) : Option (List Char) :=
  (((List.range (cs.length + 1)).reverse).map (fun n => cs.take n)).find?
    (fun p => (t.get p).isSome)

/-- Concrete table for the C5 counterexample: the one-character prefix is a
key, the two-character prefix is not, the three-character prefix is. -/
def c5table : Table :=
  [(['a'], [⟨false, 1, 1, 1⟩]), (['a', 'b', 'c'], [⟨false, 9, 9, 9⟩])]

/-! ## CLDR tailoring rule parser (src/collation_rules.rs) -/

/-- Rust `char::is_whitespace`: the Unicode White_Space property
(U+0009-U+000D, U+0020, U+0085, U+00A0, U+1680, U+2000-U+200A, U+2028,
U+2029, U+202F, U+205F, U+3000). -/
def isRustWhitespace (c : Char) : Bool :=
  decide (c.toNat = 0x20 ∨ (0x9 ≤ c.toNat ∧ c.toNat ≤ 0xD) ∨ c.toNat = 0x85 ∨
    c.toNat = 0xA0 ∨ c.toNat = 0x1680 ∨ (0x2000 ≤ c.toNat ∧ c.toNat ≤ 0x200A) ∨
    c.toNat = 0x2028 ∨ c.toNat = 0x2029 ∨ c.toNat = 0x202F ∨ c.toNat = 0x205F ∨
    c.toNat = 0x3000)

/-- Embeds `is_reserved_char` (src/collation_rules.rs). -/
def is_reserved_char (c : Char) : Bool :=
  isRustWhitespace c ||
    decide ((0x21 ≤ c.toNat ∧ c.toNat ≤ 0x2F) ∨ (0x3A ≤ c.toNat ∧ c.toNat ≤ 0x40) ∨
      (0x5B ≤ c.toNat ∧ c.toNat ≤ 0x60) ∨ (0x7B ≤ c.toNat ∧ c.toNat ≤ 0x7E))

/-- Embeds `SequenceElement` (src/collation_rules.rs); `Range` keeps the two
endpoints of the source's `RangeInclusive<char>`. -/
inductive SequenceElement where
  | Range (first last : Char)
  | Char (c : Char)
  deriving DecidableEq, Repr

/-- Embeds `Rule` (src/collation_rules.rs).  The source field `prefix` of
`Increment` is named `pref` here (the source name is a Lean keyword). -/
inductive Rule where
  | SetContext (before : Option Nat) (sequence : List Char)
  | Equal (sequence : List Char)
  | MultiEqual (multisequence : List SequenceElement)
  | Increment (level : Nat) (pref : Option (List Char)) (extension : Option (List Char))
      (sequence : List Char)
  | MultiIncrement (level : Nat) (multisequence : List SequenceElement)
  deriving DecidableEq, Repr

/-- Embeds `CollationRules` (src/collation_rules.rs). -/
structure CollationRules where
  settings : List (List Char × List Char)
  rules : List Rule
  deriving DecidableEq, Repr

/-- Embeds `comment` (src/collation_rules.rs): whitespace, at most one
`# … line-ending` comment, then whitespace again. -/
def comment : P Unit := fun i =>
  match multispace0P i with
  | none => none
  | some (_, j) =>
    match optP (fun k =>
      match charP '#' k with
      | none => none
      | some (_, k₁) =>
        match notLineEndingP k₁ with
        | none => none
        | some (_, k₂) => lineEndingP k₂) j with
    | none => none
    | some (_, k) => valueP () multispace0P k

/-- Embeds `identifier` (src/collation_rules.rs). -/
def identifier : P (List Char) :=
  recognizeP (many1P (altP alphanumeric1P (tagP ['-'])))

/-- Embeds `setting` (src/collation_rules.rs): `[key value]`. -/
def setting : P (List Char × List Char) := fun i =>
  match charP '[' i with
  | none => none
  | some (_, j) =>
    match identifier j with
    | none => none
    | some (k1, j₁) =>
      match space1P j₁ with
      | none => none
      | some (_, j₂) =>
        match identifier j₂ with
        | none => none
        | some (k2, j₃) =>
          match charP ']' j₃ with
          | none => none
          | some (_, rest) => some ((k1, k2), rest)

/-- Embeds `settings` (src/collation_rules.rs). -/
def settings : P (List (List Char × List Char)) := separatedList0 comment setting

/-- Embeds `legal_char` (src/collation_rules.rs). -/
def legal_char : P Char := satisfyP (fun c => !is_reserved_char c)

/-- One item of `multisequence` (src/collation_rules.rs): a `c₁-c₂` range or
a single legal character; no validation relates the two endpoints. -/
def msItem : P SequenceElement :=
  altP
    (fun i =>
      match legal_char i with
      | none => none
      | some (beg, j) =>
        match charP '-' j with
        | none => none
        | some (_, k) =>
          match legal_char k with
          | none => none
          | some (last, rest) => some (SequenceElement.Range beg last, rest))
    (mapP legal_char SequenceElement.Char)

/-- Embeds `multisequence` (src/collation_rules.rs). -/
def multisequence : P (List SequenceElement) := many1P msItem

/-- Embeds `hex_digits` (src/collation_rules.rs): exactly `n` hex digits (the
source checks `c < u8::MAX as char && is_hex_digit(c as u8)`), decoded via
`u32::from_str_radix` and `char::from_u32`. -/
def hex_digits (n : Nat) : P Char :=
  mapOptP
    (recognizeP (countP
      (satisfyP (fun c =>
        decide (c.toNat < 255) &&
          decide ((48 ≤ c.toNat % 256 ∧ c.toNat % 256 ≤ 57) ∨
            (97 ≤ c.toNat % 256 ∧ c.toNat % 256 ≤ 102) ∨
            (65 ≤ c.toNat % 256 ∧ c.toNat % 256 ≤ 70)))) n))
    hexToChar

/-- Embeds `escaped_char` (src/collation_rules.rs): after `\\`, try `U`+8 hex,
`u`+4 hex, the single-letter escapes, and finally fall back to the next
character itself (`anychar`). -/
def escaped_char : P Char := fun i =>
  match charP '\\' i with
  | none => none
  | some (_, j) =>
    (altP (fun k =>
        match charP 'U' k with
        | none => none
        | some (_, k') => hex_digits 8 k')
      (altP (fun k =>
          match charP 'u' k with
          | none => none
          | some (_, k') => hex_digits 4 k')
        (altP (valueP '\x07' (charP 'a'))
          (altP (valueP '\x08' (charP 'b'))
            (altP (valueP '\t' (charP 't'))
              (altP (valueP '\n' (charP 'n'))
                (altP (valueP '\x0B' (charP 'v'))
                  (altP (valueP '\x0C' (charP 'f'))
                    (altP (valueP '\x0D' (charP 'r'))
                      (altP (valueP '\x1B' (charP 'e'))
                        (altP (valueP '\x22' (charP '"'))
                          (altP (valueP '\x27' (charP '\''))
                            (altP (valueP '\x3F' (charP '?'))
                              (altP (valueP '\x5C' (charP '\\'))
                                anycharP)))))))))))))) j

/-- Embeds `quoted_chars` (src/collation_rules.rs): a single-quoted span of
literal characters (anything but `\\` and `'`) and escapes. -/
def quoted_chars : P (List Char) := fun i =>
  match charP '\'' i with
  | none => none
  | some (_, j) =>
    match many1P (altP (noneOfP ['\\', '\'']) escaped_char) j with
    | none => none
    | some (v, k) =>
      match charP '\'' k with
      | none => none
      | some (_, rest) => some (v, rest)

/-- Embeds `sequence` (src/collation_rules.rs), named `sequenceP` here (Mathlib
already declares `sequence`): one or more runs of unreserved characters or
quoted spans, concatenated. -/
def sequenceP : P (List Char) :=
  mapP
    (many1P (altP (recognizeP (many1P (satisfyP (fun c => !is_reserved_char c))))
      quoted_chars))
    (fun v => v.flatten)

/-- Embeds `before` (src/collation_rules.rs): `[before N]` with N in `123`. -/
def before : P Nat := fun i =>
  match charP '[' i with
  | none => none
  | some (_, j) =>
    match tagP "before".toList j with
    | none => none
    | some (_, j₁) =>
      match multispace1P j₁ with
      | none => none
      | some (_, j₂) =>
        match oneOfP ['1', '2', '3'] j₂ with
        | none => none
        | some (c, j₃) =>
          match charP ']' j₃ with
          | none => none
          | some (_, rest) => some (c.toNat - 48, rest)

/-- Embeds `set_context` (src/collation_rules.rs). -/
def set_context : P Rule := fun i =>
  match charP '&' i with
  | none => none
  | some (_, j) =>
    match comment j with
    | none => none
    | some (_, j₁) =>
      match optP (fun k =>
        match before k with
        | none => none
        | some (b, k₁) =>
          match comment k₁ with
          | none => none
          | some (_, k₂) => some (b, k₂)) j₁ with
      | none => none
      | some (b, j₂) =>
        match sequenceP j₂ with
        | none => none
        | some (seq, rest) => some (Rule.SetContext b seq, rest)

/-- Embeds `multi_increment` (src/collation_rules.rs): `<`{1,4} directly followed
by `*`, then (comment-separated) a multisequence. -/
def multi_increment : P Rule := fun i =>
  match manyMN 1 4 (charP '<') i with
  | none => none
  | some (ls, j) =>
    match charP '*' j with
    | none => none
    | some (_, j₁) =>
      match comment j₁ with
      | none => none
      | some (_, j₂) =>
        match multisequence j₂ with
        | none => none
        | some (ms, rest) => some (Rule.MultiIncrement ls.length ms, rest)

/-- Embeds `increment` (src/collation_rules.rs). -/
def increment : P Rule := fun i =>
  match manyMN 1 4 (charP '<') i with
  | none => none
  | some (ls, j) =>
    match comment j with
    | none => none
    | some (_, j₁) =>
      match sequenceP j₁ with
      | none => none
      | some (seq, j₂) =>
        match optP (fun k =>
          match comment k with
          | none => none
          | some (_, k₁) =>
            match charP '|' k₁ with
            | none => none
            | some (_, k₂) =>
              match comment k₂ with
              | none => none
              | some (_, k₃) => sequenceP k₃) j₂ with
        | none => none
        | some (pre, j₃) =>
          match optP (fun k =>
            match comment k with
            | none => none
            | some (_, k₁) =>
              match charP '/' k₁ with
              | none => none
              | some (_, k₂) =>
                match comment k₂ with
                | none => none
                | some (_, k₃) => sequenceP k₃) j₃ with
          | none => none
          | some (ext, rest) => some (Rule.Increment ls.length pre ext seq, rest)

/-- Embeds `multi_equal` (src/collation_rules.rs): `=*` then a multisequence. -/
def multi_equal : P Rule := fun i =>
  match tagP ['=', '*'] i with
  | none => none
  | some (_, j) =>
    match comment j with
    | none => none
    | some (_, j₁) =>
      match multisequence j₁ with
      | none => none
      | some (ms, rest) => some (Rule.MultiEqual ms, rest)

/-- Embeds `equal` (src/collation_rules.rs). -/
def equal : P Rule := fun i =>
  match charP '=' i with
  | none => none
  | some (_, j) =>
    match comment j with
    | none => none
    | some (_, j₁) =>
      match sequenceP j₁ with
      | none => none
      | some (seq, rest) => some (Rule.Equal seq, rest)

/-- Embeds `rule` (src/collation_rules.rs): leading comment, then the alternatives
in source order: `multi_increment`, `increment`, `multi_equal`, `equal`,
`set_context`. -/
def rule : P Rule := fun i =>
  match comment i with
  | none => none
  | some (_, j) =>
    altP multi_increment
      (altP increment (altP multi_equal (altP equal set_context))) j

/-- Embeds `rules` (src/collation_rules.rs). -/
def rules : P (List Rule) := many0P rule

/-- The inner `delimited(comment, separated_pair(settings, comment, rules), …)`
of `cldr` (src/collation_rules.rs), up to but excluding the trailing comment
and the `all_consuming` check. -/
def cldrCore : P (List (List Char × List Char) × List Rule) := fun i =>
  match comment i with
  | none => none
  | some (_, i₁) =>
    match settings i₁ with
    | none => none
    | some (s, i₂) =>
      match comment i₂ with
      | none => none
      | some (_, i₃) =>
        match rules i₃ with
        | none => none
        | some (r, i₄) => some ((s, r), i₄)

/-- Embeds `cldr` (src/collation_rules.rs): the full rule-text parser; the trailing
comment is consumed and `all_consuming` requires empty remaining input. -/
def cldr (i : List Char) : Option CollationRules :=
  match cldrCore i with
  | none => none
  | some ((s, r), i₄) =>
    match comment i₄ with
    | none => none
    | some (_, i₅) => if i₅ = [] then some ⟨s, r⟩ else none

/-! ## SortKey ordering (src/lib.rs, `#[derive(PartialOrd, Ord)]`) -/

/-- Rust `u16::cmp`. -/
def wcmp (a b : Nat) : Ordering :=
  if a < b then .lt else if a = b then .eq else .gt

/-- Rust `Vec<u16>::cmp`: lexicographic, element-wise, a strict prefix
compares less. -/
def compareList : List Nat → List Nat → Ordering
  | [], [] => .eq
  | [], _ :: _ => .lt
  | _ :: _, [] => .gt
  | a :: as, b :: bs => (wcmp a b).then (compareList as bs)

/-- The derived `Ord` of `SortKey` (src/lib.rs): field by field, `symbols`
then `diacritics` then `cases`. -/
def compareKey (k₁ k₂ : SortKey) : Ordering :=
  (compareList k₁.symbols k₂.symbols).then
    ((compareList k₁.diacritics k₂.diacritics).then
      (compareList k₁.cases k₂.cases))

/-- The spec's logical ordering key: `L1 ++ [0] ++ L2 ++ [0] ++ L3`. -/
def logicalKey (k : SortKey) : List Nat :=
  k.symbols ++ 0 :: (k.diacritics ++ 0 :: k.cases)

/-- All stored weights of a sort key are nonzero. -/
def nonzeroKey (k : SortKey) : Prop :=
  (∀ w ∈ k.symbols, w ≠ 0) ∧ (∀ w ∈ k.diacritics, w ≠ 0) ∧ (∀ w ∈ k.cases, w ≠ 0)

instance (k : SortKey) : Decidable (nonzeroKey k) := by
  unfold nonzeroKey
  infer_instance

/-! ## Lemmas about the collation-element stream -/

theorem extend_length (t : Table) :
    ∀ (cs s : List Char) (e : List CollationElement),
      (extend t s e cs).2.length ≤ cs.length := by
  intro cs
  induction cs with
  | nil => intro s e; simp [extend]
  | cons c rest ih =>
    intro s e
    simp only [extend]
    cases hg : t.get (s ++ [c]) with
    | none => simp
    | some e2 => exact le_trans (ih (s ++ [c]) e2) (Nat.le_succ _)

theorem extend_spec (t : Table) :
    ∀ (cs s : List Char) (e : List CollationElement), t.get s = some e →
      ∃ q, cs = q ++ (extend t s e cs).2 ∧
        t.get (s ++ q) = some (extend t s e cs).1 ∧
        (∀ k, k ≤ q.length → (t.get (s ++ q.take k)).isSome = true) ∧
        (∀ c' r', (extend t s e cs).2 = c' :: r' → t.get ((s ++ q) ++ [c']) = none) := by
  intro cs
  induction cs with
  | nil =>
    intro s e he
    refine ⟨[], by simp [extend], by simp [extend, he], ?_, ?_⟩
    · intro k hk
      have : k = 0 := Nat.le_zero.mp hk
      subst this
      simp [he]
    · intro c' r' h
      simp [extend] at h
  | cons c rest ih =>
    intro s e he
    cases hg : t.get (s ++ [c]) with
    | none =>
      refine ⟨[], ?_, ?_, ?_, ?_⟩
      · simp [extend, hg]
      · simp [extend, hg, he]
      · intro k hk
        have : k = 0 := Nat.le_zero.mp hk
        subst this
        simp [he]
      · intro c' r' h
        simp [extend, hg] at h
        obtain ⟨⟨rfl, rfl⟩, -⟩ := h
        simpa using hg
    | some e2 =>
      obtain ⟨q', hq1, hq2, hq3, hq4⟩ := ih (s ++ [c]) e2 hg
      refine ⟨c :: q', ?_, ?_, ?_, ?_⟩
      · simpa [extend, hg] using hq1
      · have : s ++ (c :: q') = (s ++ [c]) ++ q' := by simp
        rw [this]
        simpa [extend, hg] using hq2
      · intro k hk
        cases k with
        | zero => simp [he]
        | succ k' =>
          have hk' : k' ≤ q'.length := by simpa using hk
          have := hq3 k' hk'
          have harr : s ++ (c :: q').take (k' + 1) = (s ++ [c]) ++ q'.take k' := by simp
          rw [harr]
          exact this
      · intro c' r' h
        have h' : (extend t (s ++ [c]) e2 rest).2 = c' :: r' := by
          simpa [extend, hg] using h
        have := hq4 c' r' h'
        have harr : (s ++ (c :: q')) ++ [c'] = ((s ++ [c]) ++ q') ++ [c'] := by simp
        rw [harr]
        exact this

theorem elementsAux_nil (t : Table) (f : Nat) : elementsAux t f [] = [] := by
  cases f <;> rfl

theorem elementsAux_mono (t : Table) :
    ∀ (f₁ : Nat) (cs : List Char) (f₂ : Nat), cs.length ≤ f₁ → cs.length ≤ f₂ →
      elementsAux t f₁ cs = elementsAux t f₂ cs := by
  intro f₁
  induction f₁ with
  | zero =>
    intro cs f₂ h1 _
    have : cs = [] := List.eq_nil_of_length_eq_zero (Nat.le_zero.mp h1)
    subst this
    simp [elementsAux_nil]
  | succ g ih =>
    intro cs f₂ h1 h2
    cases cs with
    | nil => simp [elementsAux_nil]
    | cons c rest =>
      cases f₂ with
      | zero => simp at h2
      | succ f₂' =>
        cases hg : t.get [c] with
        | none => simp [elementsAux, hg]
        | some e =>
          simp only [elementsAux, hg]
          have hlen := extend_length t rest [c] e
          have hr : rest.length ≤ g := by simpa using h1
          have hr2 : rest.length ≤ f₂' := by simpa using h2
          rw [ih (extend t [c] e rest).2 f₂' (le_trans hlen hr) (le_trans hlen hr2)]

/-! ## Claim theorems -/

/-- C1: the claim states that `generate_sort_key` appends `e.secondary` iff
`e.secondary ≠ 0` and `e.tertiary` iff `e.tertiary ≠ 0`, independently of the
other levels; the code instead `continue`s out of the loop body when an
earlier level is zero.  At a table entry with primary `0` and secondary
`0x25` (the shape of every combining-mark entry of the DUCET, e.g. U+0300
`[.0000.0025.0002]`) the generated key records no secondary weight at all,
contradicting the claim: the level-2 sequence stays empty although
`e.secondary ≠ 0`. -/
theorem c1_zero_primary_drops_nonzero_secondary :
    generate_sort_key [(['a'], [⟨false, 0, 37, 2⟩])] ['a'] =
      ⟨[], [], []⟩ ∧ (37 : Nat) ≠ 0 ∧ (2 : Nat) ≠ 0 := by
  refine ⟨by decide, by decide, by decide⟩

/-- C3: when the first character of the (normalized) remaining input has no
single-character entry in the table, the stream ends silently — it emits no
batch at all — and consequently any two inputs whose first character lacks an
entry generate equal (empty) sort keys. -/
theorem c3_missing_entry_ends_stream (t : Table) (c : Char) (cs : List Char)
    (h : t.get [c] = none) :
    elements t (c :: cs) = [] ∧
      generate_sort_key t (c :: cs) = ⟨[], [], []⟩ ∧
      ∀ (c' : Char) (cs' : List Char), t.get [c'] = none →
        generate_sort_key t (c :: cs) = generate_sort_key t (c' :: cs') := by
  have key : ∀ (d : Char) (ds : List Char), t.get [d] = none →
      elements t (d :: ds) = [] := by
    intro d ds hd
    simp [elements, elementsAux, hd]
  have kgen : ∀ (d : Char) (ds : List Char), t.get [d] = none →
      generate_sort_key t (d :: ds) = ⟨[], [], []⟩ := by
    intro d ds hd
    simp [generate_sort_key, key d ds hd]
  refine ⟨key c cs h, kgen c cs h, ?_⟩
  intro c' cs' h'
  rw [kgen c cs h, kgen c' cs' h']

/-- Witness for C3 at a concrete table and concrete inputs. -/
theorem c3_witness :
    Table.get [(['z'], [⟨false, 1, 1, 1⟩])] ['a'] = none ∧
      elements [(['z'], [⟨false, 1, 1, 1⟩])] ['a', 'b'] = [] ∧
      generate_sort_key [(['z'], [⟨false, 1, 1, 1⟩])] ['a', 'b'] =
        generate_sort_key [(['z'], [⟨false, 1, 1, 1⟩])] ['c'] := by
  have h := c3_missing_entry_ends_stream [(['z'], [⟨false, 1, 1, 1⟩])] 'a' ['b'] (by decide)
  exact ⟨by decide, h.1, h.2.2 'c' [] (by decide)⟩

/-- C5 counterexample: with a table containing the keys `"a"` and `"abc"`
but not `"ab"`, on input `"abc"` the stream emits the batch of `"a"`,
although the longest prefix of the remaining stream that is a key of the
table is `"abc"`, whose table value is different.  So an emitted batch is
not always the table value of the maximal table-covered prefix. -/
theorem c5_counterexample :
    elements c5table ['a', 'b', 'c'] = [[⟨false, 1, 1, 1⟩]] ∧
      longestKeyPrefix c5table ['a', 'b', 'c'] = some ['a', 'b', 'c'] ∧
      Table.get c5table ['a', 'b', 'c'] = some [⟨false, 9, 9, 9⟩] ∧
      [(⟨false, 1, 1, 1⟩ : CollationElement)] ≠ [(⟨false, 9, 9, 9⟩ : CollationElement)] := by
  refine ⟨by decide, by decide, by decide, by decide⟩

/-- C5 as amended: batches are emitted in input order, and each emitted
batch is the table value of the longest prefix reachable by greedy
single-character extension — the longest prefix `c :: q` all of whose
leading subprefixes `c :: q.take k` are table keys, with the next character
(if any) failing to extend it.  This prefix need not be the longest
table-key prefix of the remaining stream. -/
theorem c5_greedy_chain_prefix (t : Table) (c : Char) (rest : List Char)
    (e₀ : List CollationElement) (h : t.get [c] = some e₀) :
    ∃ q rest' e, rest = q ++ rest' ∧
      t.get (c :: q) = some e ∧
      (∀ k, k ≤ q.length → (t.get (c :: q.take k)).isSome = true) ∧
      (∀ c' r', rest' = c' :: r' → t.get (c :: (q ++ [c'])) = none) ∧
      elements t (c :: rest) = e :: elements t rest' := by
  obtain ⟨q, hq1, hq2, hq3, hq4⟩ := extend_spec t rest [c] e₀ h
  refine ⟨q, (extend t [c] e₀ rest).2, (extend t [c] e₀ rest).1, hq1, ?_, ?_, ?_, ?_⟩
  · simpa using hq2
  · intro k hk
    simpa using hq3 k hk
  · intro c' r' hr
    have := hq4 c' r' hr
    simpa using this
  · have hfuel : elements t (c :: rest)
        = (extend t [c] e₀ rest).1 :: elementsAux t rest.length (extend t [c] e₀ rest).2 := by
      simp [elements, elementsAux, h]
    rw [hfuel]
    have hlen := extend_length t rest [c] e₀
    rw [elementsAux_mono t rest.length (extend t [c] e₀ rest).2
      (extend t [c] e₀ rest).2.length hlen le_rfl]
    rfl

/-- Witness for C5's amended theorem at a concrete table and input. -/
theorem c5_witness :
    Table.get [(['x'], [⟨true, 4, 5, 6⟩])] ['x'] = some [⟨true, 4, 5, 6⟩] ∧
      ∃ q rest' e, (['y'] : List Char) = q ++ rest' ∧
        Table.get [(['x'], [⟨true, 4, 5, 6⟩])] ('x' :: q) = some e ∧
        (∀ k, k ≤ q.length →
          (Table.get [(['x'], [⟨true, 4, 5, 6⟩])] ('x' :: q.take k)).isSome = true) ∧
        (∀ c' r', rest' = c' :: r' →
          Table.get [(['x'], [⟨true, 4, 5, 6⟩])] ('x' :: (q ++ [c'])) = none) ∧
        elements [(['x'], [⟨true, 4, 5, 6⟩])] ('x' :: ['y']) =
          e :: elements [(['x'], [⟨true, 4, 5, 6⟩])] rest' :=
  ⟨by decide, c5_greedy_chain_prefix [(['x'], [⟨true, 4, 5, 6⟩])] 'x' ['y']
    [⟨true, 4, 5, 6⟩] (by decide)⟩

/-- C7: a sort-key bracket whose number of dot-separated weight fields is
not exactly 3 makes `parse_sortkey` fail, and a table text containing such a
row fails to parse (no such row is ever inserted). -/
theorem c7_wrong_arity_fails :
    (∀ (i : List Char) (var : Bool) (levels : List Nat) (rest : List Char),
        sortkeyRaw i = some ((var, levels), rest) → levels.length ≠ 3 →
        parse_sortkey i = none) ∧
      tableFrom "0041;[.0002.0003] # bad\n".toList = none := by
  constructor
  · intro i var levels rest h hlen
    simp [parse_sortkey, h, hlen]
  · decide

/-- Witness for C7 at a concrete two-level bracket. -/
theorem c7_witness :
    sortkeyRaw "[.0002.0003]".toList = some ((false, [2, 3]), []) ∧
      parse_sortkey "[.0002.0003]".toList = none :=
  ⟨by decide, c7_wrong_arity_fails.1 _ false [2, 3] [] (by decide) (by decide)⟩

theorem thenAssoc (o₁ o₂ o₃ : Ordering) :
    (o₁.then o₂).then o₃ = o₁.then (o₂.then o₃) := by
  cases o₁ <;> rfl

theorem wcmp_zero_left {h : Nat} (hh : h ≠ 0) : wcmp 0 h = .lt := by
  unfold wcmp
  split
  · rfl
  · omega

theorem wcmp_eq_iff (a b : Nat) : wcmp a b = .eq ↔ a = b := by
  unfold wcmp
  split
  · constructor
    · intro h
      cases h
    · omega
  · split
    · simp [*]
    · constructor
      · intro h
        cases h
      · omega

theorem compareList_eq_iff : ∀ (a b : List Nat), compareList a b = .eq ↔ a = b := by
  intro a
  induction a with
  | nil =>
    intro b
    cases b <;> simp [compareList]
  | cons h t ih =>
    intro b
    cases b with
    | nil => simp [compareList]
    | cons h' t' =>
      simp only [compareList]
      rw [Ordering.then_eq_eq, wcmp_eq_iff, ih t']
      simp

theorem compareList_append_sep (a : List Nat) :
    ∀ (b x y : List Nat), (∀ w ∈ a, w ≠ 0) → (∀ w ∈ b, w ≠ 0) →
      compareList (a ++ 0 :: x) (b ++ 0 :: y)
        = (compareList a b).then (compareList x y) := by
  induction a with
  | nil =>
    intro b x y _ hb
    cases b with
    | nil => simp [compareList, wcmp, Ordering.then]
    | cons h t =>
      have hh : h ≠ 0 := hb h (by simp)
      simp [compareList, wcmp_zero_left hh, Ordering.then]
  | cons h t ih =>
    intro b x y ha hb
    cases b with
    | nil =>
      have hh : h ≠ 0 := ha h (by simp)
      have hw : wcmp h 0 = .gt := by
        unfold wcmp
        have h1 : ¬ h < 0 := Nat.not_lt_zero h
        have h2 : ¬ h = 0 := hh
        simp [h1, h2]
      simp [compareList, hw, Ordering.then]
    | cons h' t' =>
      have key := ih t' x y (fun w hw => ha w (by simp [hw])) (fun w hw => hb w (by simp [hw]))
      calc compareList ((h :: t) ++ 0 :: x) ((h' :: t') ++ 0 :: y)
          = (wcmp h h').then (compareList (t ++ 0 :: x) (t' ++ 0 :: y)) := rfl
        _ = (wcmp h h').then ((compareList t t').then (compareList x y)) := by rw [key]
        _ = ((wcmp h h').then (compareList t t')).then (compareList x y) := (thenAssoc ..).symm
        _ = (compareList (h :: t) (h' :: t')).then (compareList x y) := rfl

/-- C4: on sort keys whose stored weights are all nonzero, the derived
field-by-field ordering of `SortKey` coincides with lexicographic comparison
of the logical sequences `L1 ++ [0] ++ L2 ++ [0] ++ L3`; in particular a
difference in the primary sequences alone decides the comparison. -/
theorem c4_derived_ord_matches_logical (k₁ k₂ : SortKey)
    (h₁ : nonzeroKey k₁) (h₂ : nonzeroKey k₂) :
    compareKey k₁ k₂ = compareList (logicalKey k₁) (logicalKey k₂) ∧
      (k₁.symbols ≠ k₂.symbols →
        compareKey k₁ k₂ = compareList k₁.symbols k₂.symbols) := by
  constructor
  · unfold logicalKey compareKey
    rw [compareList_append_sep _ _ _ _ h₁.1 h₂.1,
      compareList_append_sep _ _ _ _ h₁.2.1 h₂.2.1]
  · intro hne
    have hcc : compareList k₁.symbols k₂.symbols ≠ .eq := fun he =>
      hne ((compareList_eq_iff _ _).mp he)
    unfold compareKey
    cases hc : compareList k₁.symbols k₂.symbols with
    | lt => rfl
    | eq => exact absurd hc hcc
    | gt => rfl

/-- Witness for C4 at concrete nonzero keys, one of which is a strict
prefix extension of the other at level 1. -/
theorem c4_witness :
    nonzeroKey ⟨[1], [2], [3]⟩ ∧ nonzeroKey ⟨[1, 4], [2], []⟩ ∧
      compareKey ⟨[1], [2], [3]⟩ ⟨[1, 4], [2], []⟩ =
        compareList (logicalKey ⟨[1], [2], [3]⟩) (logicalKey ⟨[1, 4], [2], []⟩) ∧
      compareKey ⟨[1], [2], [3]⟩ ⟨[1, 4], [2], []⟩ =
        compareList [1] [1, 4] :=
  ⟨by decide, by decide,
    (c4_derived_ord_matches_logical ⟨[1], [2], [3]⟩ ⟨[1, 4], [2], []⟩
      (by decide) (by decide)).1,
    (c4_derived_ord_matches_logical ⟨[1], [2], [3]⟩ ⟨[1, 4], [2], []⟩
      (by decide) (by decide)).2 (by decide)⟩

/-! ## Evaluation and shape lemmas for the parser combinators -/

theorem charP_forward {c : Char} {i rest : List Char} {a : Char}
    (h : charP c i = some (a, rest)) : a = c ∧ i = c :: rest := by
  match i with
  | [] => exact absurd h (by simp [charP])
  | x :: t =>
    by_cases hx : x = c
    · simp [charP, hx] at h
      exact ⟨h.1.symm, by rw [hx, h.2]⟩
    · simp [charP, hx] at h

theorem satisfyP_forward {f : Char → Bool} {i rest : List Char} {x : Char}
    (h : satisfyP f i = some (x, rest)) : i = x :: rest ∧ f x = true := by
  match i with
  | [] => exact absurd h (by simp [satisfyP])
  | y :: t =>
    by_cases hy : f y
    · simp [satisfyP, hy] at h
      exact ⟨by rw [h.1, h.2], by rw [← h.1]; exact hy⟩
    · simp [satisfyP, hy] at h

theorem tagP_forward {s i rest : List Char} {a : List Char}
    (h : tagP s i = some (a, rest)) : a = s ∧ i = s ++ rest := by
  by_cases hp : s.isPrefixOf i
  · simp [tagP, hp] at h
    have hpre : s <+: i := by
      rwa [List.isPrefixOf_iff_prefix] at hp
    obtain ⟨u, hu⟩ := hpre
    refine ⟨h.1.symm, ?_⟩
    have : i.drop s.length = u := by
      rw [← hu, List.drop_left]
    rw [← hu, ← h.2, this]
  · simp [tagP, hp] at h

theorem isNotP_forward {s i rest run : List Char}
    (h : isNotP s i = some (run, rest)) :
    i = run ++ rest ∧ run ≠ [] ∧ ∀ c ∈ run, s.contains c = false := by
  have h' : (if (i.takeWhile (fun c => !s.contains c)).isEmpty then
        (none : Option (List Char × List Char))
      else some (i.takeWhile (fun c => !s.contains c),
        i.drop (i.takeWhile (fun c => !s.contains c)).length)) = some (run, rest) := h
  by_cases he : (i.takeWhile (fun c => !s.contains c)).isEmpty
  · rw [if_pos he] at h'
    cases h'
  · rw [if_neg he] at h'
    injection h' with hpair
    injection hpair with hrun hrest
    have hpre : i.takeWhile (fun c => !s.contains c) <+: i := List.takeWhile_prefix _
    rw [hrun] at hpre
    obtain ⟨u, hu⟩ := hpre
    rw [hrun] at hrest
    have hdrop : i.drop run.length = u := by
      rw [← hu]
      exact List.drop_left ..
    refine ⟨?_, ?_, ?_⟩
    · rw [← hrest, hdrop]
      exact hu.symm
    · rw [hrun] at he
      intro hnil
      rw [hnil] at he
      exact he rfl
    · intro c hc
      rw [← hrun] at hc
      have := List.mem_takeWhile_imp hc
      simpa using this

theorem manyAux_charP_forward {c : Char} :
    ∀ (b : Nat) (i sp rest : List Char),
      manyAux (charP c) b i = some (sp, rest) →
      i = sp ++ rest ∧ ∀ x ∈ sp, x = c := by
  intro b
  induction b with
  | zero => intro i sp rest h; exact absurd h (by simp [manyAux])
  | succ b ih =>
    intro i sp rest h
    simp only [manyAux] at h
    split at h
    · injection h with hpair
      injection hpair with hsp hrest
      rw [← hsp, ← hrest]
      simp
    · rename_i a j hc
      obtain ⟨ha, hi⟩ := charP_forward hc
      split at h
      · split at h
        · cases h
        · rename_i as rest' hr
          injection h with hpair
          injection hpair with hp1 hp2
          obtain ⟨hj, hall⟩ := ih j as rest' hr
          refine ⟨?_, ?_⟩
          · rw [← hp1, ← hp2, hi, hj, ha]
            rfl
          · intro x hx
            rw [← hp1] at hx
            rcases List.mem_cons.mp hx with hx | hx
            · rw [hx, ha]
            · exact hall x hx
      · cases h

theorem manyAux_sat_exact (f : Char → Bool) :
    ∀ (ws : List Char) (b : Nat) (t : List Char), ws.length < b →
      (∀ c ∈ ws, f c = true) →
      (∀ d t', t = d :: t' → f d = false) →
      manyAux (satisfyP f) b (ws ++ t) = some (ws, t) := by
  intro ws
  induction ws with
  | nil =>
    intro b t hb hws ht
    match b, hb with
    | b + 1, _ =>
      match t with
      | [] => simp [manyAux, satisfyP]
      | d :: t' =>
        have := ht d t' rfl
        simp [manyAux, satisfyP, this]
  | cons w ws ih =>
    intro b t hb hws ht
    match b, hb with
    | b + 1, hb =>
      have hw : f w = true := hws w (by simp)
      have hrec := ih b t (by simpa using hb) (fun c hc => hws c (by simp [hc])) ht
      have hsat : satisfyP f ((w :: ws) ++ t) = some (w, ws ++ t) := by
        simp [satisfyP, hw]
      have hlt : (ws ++ t).length < ((w :: ws) ++ t).length := by simp
      simp only [manyAux, hsat, if_pos hlt, hrec]

theorem multispace0_exact (ws t : List Char)
    (hws : ∀ c ∈ ws, isNomMultispace c = true)
    (ht : ∀ d t', t = d :: t' → isNomMultispace d = false) :
    multispace0P (ws ++ t) = some (ws, t) := by
  unfold multispace0P many0P
  exact manyAux_sat_exact isNomMultispace ws ((ws ++ t).length + 1) t
    (by simp; omega) hws ht

theorem takeWhile_all_append (p : Char → Bool) :
    ∀ (a b : List Char), (∀ c ∈ a, p c = true) →
      (∀ d t', b = d :: t' → p d = false) →
      (a ++ b).takeWhile p = a := by
  intro a
  induction a with
  | nil =>
    intro b _ hb
    match b with
    | [] => simp
    | d :: t' => simp [List.takeWhile_cons, hb d t' rfl]
  | cons x xs ih =>
    intro b ha hb
    have hx : p x = true := ha x (by simp)
    simp [List.takeWhile_cons, hx, ih b (fun c hc => ha c (by simp [hc])) hb]

theorem notLineEnding_clean (cmt : List Char)
    (h1 : '\n' ∉ cmt) (h2 : '\r' ∉ cmt)
    (t : List Char) (ht : ∀ d t', t = d :: t' → d = '\n') :
    notLineEndingP (cmt ++ t) = some (cmt, t) := by
  have htw : (cmt ++ t).takeWhile (fun c => c ≠ '\r' && c ≠ '\n') = cmt := by
    apply takeWhile_all_append
    · intro c hc
      have hcn : c ≠ '\n' := fun hcc => h1 (hcc ▸ hc)
      have hcr : c ≠ '\r' := fun hcc => h2 (hcc ▸ hc)
      simp [hcn, hcr]
    · intro d t' hdt
      have := ht d t' hdt
      simp [this]
  have hdrop : (cmt ++ t).drop cmt.length = t := List.drop_left ..
  unfold notLineEndingP
  simp only [htw]
  rw [hdrop]
  cases t with
  | nil => rfl
  | cons d t' =>
    have hd : d = '\n' := ht d t' rfl
    rw [hd]
    rfl

theorem comment_skip (c : Char) (t : List Char)
    (h1 : isNomMultispace c = false) (h2 : c ≠ '#') :
    comment (c :: t) = some ((), c :: t) := by
  have hms : multispace0P (c :: t) = some ([], c :: t) := by
    have := multispace0_exact [] (c :: t) (by simp)
      (fun d t' hdt => by cases hdt; exact h1)
    simpa using this
  have hch : charP '#' (c :: t) = none := by simp [charP, h2]
  simp only [comment, hms, optP, hch, valueP, mapP]

theorem comment_unterminated (ws cmt : List Char)
    (hws : ∀ c ∈ ws, isNomMultispace c = true)
    (h1 : '\n' ∉ cmt) (h2 : '\r' ∉ cmt) :
    comment (ws ++ '#' :: cmt) = some ((), '#' :: cmt) := by
  have hms : multispace0P (ws ++ '#' :: cmt) = some (ws, '#' :: cmt) :=
    multispace0_exact ws ('#' :: cmt) hws
      (fun d t' hdt => by cases hdt; decide)
  have hch : charP '#' ('#' :: cmt) = some ('#', cmt) := by simp [charP]
  have hnle : notLineEndingP cmt = some (cmt, []) := by
    have := notLineEnding_clean cmt h1 h2 [] (fun d t' hdt => by cases hdt)
    simpa using this
  have hle : lineEndingP ([] : List Char) = none := by decide
  have hms2 : multispace0P ('#' :: cmt) = some ([], '#' :: cmt) := by
    have := multispace0_exact [] ('#' :: cmt) (by simp)
      (fun d t' hdt => by cases hdt; decide)
    simpa using this
  simp only [comment, hms, optP, hch, hnle, hle, valueP, mapP, hms2]

theorem comment_terminated (ws cmt : List Char)
    (hws : ∀ c ∈ ws, isNomMultispace c = true)
    (h1 : '\n' ∉ cmt) (h2 : '\r' ∉ cmt) :
    comment (ws ++ '#' :: (cmt ++ ['\n'])) = some ((), []) := by
  have hms : multispace0P (ws ++ '#' :: (cmt ++ ['\n'])) = some (ws, '#' :: (cmt ++ ['\n'])) :=
    multispace0_exact ws ('#' :: (cmt ++ ['\n'])) hws
      (fun d t' hdt => by cases hdt; decide)
  have hch : charP '#' ('#' :: (cmt ++ ['\n'])) = some ('#', cmt ++ ['\n']) := by
    simp [charP]
  have hnle : notLineEndingP (cmt ++ ['\n']) = some (cmt, ['\n']) :=
    notLineEnding_clean cmt h1 h2 ['\n'] (fun d t' hdt => by cases hdt; rfl)
  have hle : lineEndingP ['\n'] = some (['\n'], []) := by decide
  have hms2 : multispace0P ([] : List Char) = some ([], []) := by decide
  simp only [comment, hms, optP, hch, hnle, hle, valueP, mapP, hms2]

theorem comment_ws_only (ws : List Char)
    (hws : ∀ c ∈ ws, isNomMultispace c = true) :
    comment ws = some ((), []) := by
  have hms : multispace0P (ws ++ []) = some (ws, []) :=
    multispace0_exact ws [] hws (fun d t' hdt => by cases hdt)
  rw [List.append_nil] at hms
  have hch : charP '#' ([] : List Char) = none := by decide
  have hms2 : multispace0P ([] : List Char) = some ([], []) := by decide
  simp only [comment, hms, optP, hch, valueP, mapP, hms2]

theorem manyUpToAux_replicate (c d : Char) (hne : d ≠ c) :
    ∀ (b n : Nat) (t : List Char), n ≤ b →
      manyUpToAux (charP c) b (List.replicate n c ++ d :: t)
        = some (List.replicate n c, d :: t) := by
  intro b
  induction b with
  | zero =>
    intro n t hn
    have : n = 0 := Nat.le_zero.mp hn
    subst this
    simp [manyUpToAux]
  | succ b ih =>
    intro n t hn
    cases n with
    | zero =>
      have hch : charP c (d :: t) = none := by simp [charP, hne]
      simp [manyUpToAux, hch]
    | succ m =>
      have hch : charP c (c :: (List.replicate m c ++ d :: t))
          = some (c, List.replicate m c ++ d :: t) := by
        simp [charP]
      have hlt : (List.replicate m c ++ d :: t).length
          < (c :: (List.replicate m c ++ d :: t)).length := by simp
      have hrec := ih m t (by omega)
      simp only [List.replicate_succ, List.cons_append, manyUpToAux, hch,
        if_pos hlt, hrec]

/-- C2 counterexample: the rule text `&'\uD800'` contains a `\uHHHH` escape
whose hex digits `D800` are a surrogate, not a Unicode scalar; the claim
says the whole parse must fail, yet `cldr` succeeds: the escape silently
falls back to the literal character `u` and the digits are consumed as
ordinary quoted text, yielding the sequence `uD800`. -/
theorem c2_counterexample :
    cldr "&'\\uD800'".toList
      = some ⟨[], [Rule.SetContext none ['u', 'D', '8', '0', '0']]⟩ := by
  decide

/-- C2 as amended: an escape `\uHHHH` / `\U00HHHHHH` whose hex digits do
not decode to a Unicode scalar does not fail the parse; `escaped_char`
backtracks to the final `anychar` alternative and returns the letter
`u` / `U` itself, leaving the digits as ordinary input. -/
theorem c2_invalid_hex_falls_back (rest : List Char) :
    (hex_digits 4 rest = none →
        escaped_char ('\\' :: 'u' :: rest) = some ('u', rest)) ∧
      (hex_digits 8 rest = none →
        escaped_char ('\\' :: 'U' :: rest) = some ('U', rest)) := by
  constructor
  · intro h
    simp [escaped_char, altP, charP, valueP, mapP, anycharP, h]
  · intro h
    simp [escaped_char, altP, charP, valueP, mapP, anycharP, h]

/-- Witness for C2's amended theorem: a surrogate after `\u` and an
out-of-range value after `\U`. -/
theorem c2_witness :
    hex_digits 4 "D800'".toList = none ∧
      escaped_char ('\\' :: 'u' :: "D800'".toList) = some ('u', "D800'".toList) ∧
      hex_digits 8 "00110000".toList = none ∧
      escaped_char ('\\' :: 'U' :: "00110000".toList)
        = some ('U', "00110000".toList) :=
  ⟨by decide, (c2_invalid_hex_falls_back _).1 (by decide), by decide,
    (c2_invalid_hex_falls_back _).2 (by decide)⟩

/-- C8: a run of one to four `<` immediately followed by `*` and a valid
multisequence parses as `MultiIncrement` with the level equal to the number
of `<` (never as an `Increment` whose sequence starts with `*`), and `=*`
followed by a valid multisequence parses as `MultiEqual`, never `Equal`. -/
theorem c8_star_variants_take_precedence (n : Nat) (h1 : 1 ≤ n) (h4 : n ≤ 4)
    (tail tail₁ rest : List Char) (elems : List SequenceElement)
    (hc : comment tail = some ((), tail₁))
    (hm : multisequence tail₁ = some (elems, rest)) :
    rule (List.replicate n '<' ++ '*' :: tail)
        = some (Rule.MultiIncrement n elems, rest) ∧
      rule ('=' :: '*' :: tail) = some (Rule.MultiEqual elems, rest) := by
  constructor
  · obtain ⟨m, rfl⟩ : ∃ m, n = m + 1 := ⟨n - 1, by omega⟩
    have hcmt : comment (List.replicate (m + 1) '<' ++ '*' :: tail)
        = some ((), List.replicate (m + 1) '<' ++ '*' :: tail) := by
      rw [List.replicate_succ, List.cons_append]
      exact comment_skip '<' _ (by decide) (by decide)
    have hmn : manyMN 1 4 (charP '<') (List.replicate (m + 1) '<' ++ '*' :: tail)
        = some (List.replicate (m + 1) '<', '*' :: tail) := by
      unfold manyMN
      rw [manyUpToAux_replicate '<' '*' (by decide) 4 (m + 1) tail (by omega)]
      simp
    have hstar : charP '*' ('*' :: tail) = some ('*', tail) := by simp [charP]
    have hmi : multi_increment (List.replicate (m + 1) '<' ++ '*' :: tail)
        = some (Rule.MultiIncrement (m + 1) elems, rest) := by
      simp only [multi_increment, hmn, hstar, hc, hm, List.length_replicate]
    simp only [rule, hcmt, altP, hmi]
  · have hcmt : comment ('=' :: '*' :: tail) = some ((), '=' :: '*' :: tail) :=
      comment_skip '=' _ (by decide) (by decide)
    have hlt : charP '<' ('=' :: '*' :: tail) = none := by simp [charP]
    have hmn : manyMN 1 4 (charP '<') ('=' :: '*' :: tail) = none := by
      simp [manyMN, manyUpToAux, hlt]
    have htag : tagP ['=', '*'] ('=' :: '*' :: tail) = some (['=', '*'], tail) := by
      simp [tagP, List.isPrefixOf]
    have hme : multi_equal ('=' :: '*' :: tail) = some (Rule.MultiEqual elems, rest) := by
      simp only [multi_equal, htag, hc, hm]
    have hmif : multi_increment ('=' :: '*' :: tail) = none := by
      simp only [multi_increment, hmn]
    have hif : increment ('=' :: '*' :: tail) = none := by
      simp only [increment, hmn]
    simp only [rule, hcmt, altP, hmif, hif, hme]

/-- Witness for C8 at `<<* ab` and `=* ab`. -/
theorem c8_witness :
    comment " ab".toList = some ((), ['a', 'b']) ∧
      multisequence ['a', 'b']
        = some ([SequenceElement.Char 'a', SequenceElement.Char 'b'], []) ∧
      rule "<<* ab".toList
        = some (Rule.MultiIncrement 2
            [SequenceElement.Char 'a', SequenceElement.Char 'b'], []) ∧
      rule "=* ab".toList
        = some (Rule.MultiEqual
            [SequenceElement.Char 'a', SequenceElement.Char 'b'], []) := by
  have h := c8_star_variants_take_precedence 2 (by decide) (by decide)
    " ab".toList ['a', 'b'] []
    [SequenceElement.Char 'a', SequenceElement.Char 'b'] (by decide) (by decide)
  exact ⟨by decide, by decide, h.1, h.2⟩

/-- C9: the multisequence parser accepts a range item `c₁-c₂` whose first
endpoint is greater than the second, returning `Range c₁ c₂` (an empty
inclusive range in the source's `RangeInclusive`) with no error and no
endpoint-order validation. -/
theorem c9_reversed_range_accepted (c₁ c₂ : Char)
    (h₁ : is_reserved_char c₁ = false) (h₂ : is_reserved_char c₂ = false)
    (_hgt : c₂ < c₁) :
    multisequence [c₁, '-', c₂] = some ([SequenceElement.Range c₁ c₂], []) := by
  have hl1 : legal_char [c₁, '-', c₂] = some (c₁, ['-', c₂]) := by
    simp [legal_char, satisfyP, h₁]
  have hdash : charP '-' ['-', c₂] = some ('-', [c₂]) := by simp [charP]
  have hl2 : legal_char [c₂] = some (c₂, []) := by
    simp [legal_char, satisfyP, h₂]
  have hitem : msItem [c₁, '-', c₂] = some (SequenceElement.Range c₁ c₂, []) := by
    simp only [msItem, altP, hl1, hdash, hl2]
  have hnil : msItem ([] : List Char) = none := rfl
  simp only [multisequence, many1P, hitem, manyAux, hnil]

/-- Witness for C9 with the descending range `z-a`. -/
theorem c9_witness :
    is_reserved_char 'z' = false ∧ is_reserved_char 'a' = false ∧ 'a' < 'z' ∧
      multisequence "z-a".toList = some ([SequenceElement.Range 'z' 'a'], []) :=
  ⟨by decide, by decide, by decide,
    c9_reversed_range_accepted 'z' 'a' (by decide) (by decide) (by decide)⟩

/-- C10: a trailing `#` comment in a rule text is only accepted when
terminated by a line ending.  When the inner parse leaves a remainder of
the form `whitespace ++ '#' :: cmt` with no newline, `cldr` fails; with a
terminating newline (`… ++ ['\n']`), or with pure trailing whitespace, it
succeeds. -/
theorem c10_trailing_comment_needs_newline :
    (∀ (i : List Char) (s : List (List Char × List Char)) (rl : List Rule)
        (ws cmt : List Char),
      cldrCore i = some ((s, rl), ws ++ '#' :: cmt) →
      (∀ c ∈ ws, isNomMultispace c = true) → '\n' ∉ cmt → '\r' ∉ cmt →
      cldr i = none) ∧
    (∀ (i : List Char) (s : List (List Char × List Char)) (rl : List Rule)
        (ws cmt : List Char),
      cldrCore i = some ((s, rl), ws ++ '#' :: (cmt ++ ['\n'])) →
      (∀ c ∈ ws, isNomMultispace c = true) → '\n' ∉ cmt → '\r' ∉ cmt →
      cldr i = some ⟨s, rl⟩) ∧
    (∀ (i : List Char) (s : List (List Char × List Char)) (rl : List Rule)
        (ws : List Char),
      cldrCore i = some ((s, rl), ws) →
      (∀ c ∈ ws, isNomMultispace c = true) →
      cldr i = some ⟨s, rl⟩) := by
  refine ⟨?_, ?_, ?_⟩
  · intro i s rl ws cmt hcore hws h1 h2
    have hcm := comment_unterminated ws cmt hws h1 h2
    simp only [cldr, hcore, hcm]
    simp
  · intro i s rl ws cmt hcore hws h1 h2
    have hcm := comment_terminated ws cmt hws h1 h2
    simp only [cldr, hcore, hcm]
    simp
  · intro i s rl ws hcore hws
    have hcm := comment_ws_only ws hws
    simp only [cldr, hcore, hcm]
    simp

/-- Witness for C10: `& a #x` fails, `& a #x` + newline succeeds, and
trailing whitespace alone succeeds. -/
theorem c10_witness :
    cldrCore "& a #x".toList
        = some (([], [Rule.SetContext none ['a']]), [' '] ++ '#' :: ['x']) ∧
      cldr "& a #x".toList = none ∧
      cldrCore "& a #x\n".toList
        = some (([], [Rule.SetContext none ['a']]), [' '] ++ '#' :: (['x'] ++ ['\n'])) ∧
      cldr "& a #x\n".toList = some ⟨[], [Rule.SetContext none ['a']]⟩ ∧
      cldrCore "& a  ".toList
        = some (([], [Rule.SetContext none ['a']]), [' ', ' ']) ∧
      cldr "& a  ".toList = some ⟨[], [Rule.SetContext none ['a']]⟩ :=
  ⟨by decide,
    c10_trailing_comment_needs_newline.1 _ [] [Rule.SetContext none ['a']]
      [' '] ['x'] (by decide) (by decide) (by decide) (by decide),
    by decide,
    c10_trailing_comment_needs_newline.2.1 _ [] [Rule.SetContext none ['a']]
      [' '] ['x'] (by decide) (by decide) (by decide) (by decide),
    by decide,
    c10_trailing_comment_needs_newline.2.2 _ [] [Rule.SetContext none ['a']]
      [' ', ' '] (by decide) (by decide)⟩

theorem rowTerm_shape {j rest : List Char} {u : Unit}
    (h : rowTerm j = some (u, rest)) :
    ∃ sp cmt, j = sp ++ '#' :: (cmt ++ '\n' :: rest) ∧
      (∀ c ∈ sp, c = ' ') ∧ cmt ≠ [] ∧ '\n' ∉ cmt := by
  unfold rowTerm at h
  split at h
  · cases h
  rename_i sp0 j₁ hmany
  split at h
  · cases h
  rename_i a j₂ hhash
  split at h
  · cases h
  rename_i cmt j₃ hnot
  simp only [valueP, mapP] at h
  split at h
  · cases h
  rename_i nl j₄ htag
  injection h with hpair
  injection hpair with _ hrest
  obtain ⟨hj, hsp⟩ := manyAux_charP_forward (j.length + 1) j sp0 j₁ hmany
  obtain ⟨_, hj₁⟩ := charP_forward hhash
  obtain ⟨hji, hne, hmem⟩ := isNotP_forward hnot
  obtain ⟨_, hj₃⟩ := tagP_forward htag
  refine ⟨sp0, cmt, ?_, hsp, hne, ?_⟩
  · rw [hj, hj₁, hji, hj₃, hrest]
    rfl
  · intro hmemn
    have := hmem '\n' hmemn
    simp at this

theorem rowHead_head {i : List Char} {r : List Char × List CollationElement}
    {j : List Char} (h : rowHead i = some (r, j)) :
    ∃ c t, i = c :: t ∧ "0123456789abcdefABCDEF".toList.contains c = true := by
  unfold rowHead at h
  split at h
  · cases h
  rename_i cps j₁ helem
  unfold parse_element mapP at helem
  split at helem
  · cases helem
  rename_i v j₂ hsep
  unfold separatedList1 at hsep
  split at hsep
  · cases hsep
  rename_i a j₃ hchar
  unfold parse_char mapOptP at hchar
  split at hchar
  · cases hchar
  rename_i out j₄ hrec
  unfold recognizeP at hrec
  split at hrec
  · cases hrec
  rename_i v₂ j₅ hmany
  unfold many1P at hmany
  split at hmany
  · cases hmany
  rename_i c j₆ hone
  obtain ⟨hi, hcont⟩ := satisfyP_forward hone
  exact ⟨c, j₆, hi, hcont⟩

theorem hexChar_facts (c : Char)
    (hc : "0123456789abcdefABCDEF".toList.contains c = true) :
    c ≠ '\n' ∧ c ≠ '#' ∧ c ≠ '@' ∧ isNomSpace c = false ∧
      isNomMultispace c = false := by
  have hmem : c ∈ "0123456789abcdefABCDEF".toList := by
    simpa using hc
  fin_cases hmem <;> refine ⟨by decide, by decide, by decide, by decide, by decide⟩

theorem tableLine_none {i : List Char} {r : List Char × List CollationElement}
    {j : List Char} (hhead : rowHead i = some (r, j)) (hterm : rowTerm j = none) :
    tableLine i = none := by
  obtain ⟨c, t, rfl, hc⟩ := rowHead_head hhead
  obtain ⟨h1, h2, h3, h4, _⟩ := hexChar_facts c hc
  have alt1 : tagP ['\n'] (c :: t) = none := by
    have : ('\n' == c) = false := by
      simp [Ne.symm h1]
    simp [tagP, List.isPrefixOf, this]
  have hs0 : space0P (c :: t) = some ([], c :: t) := by
    unfold space0P many0P
    have := manyAux_sat_exact isNomSpace [] ((c :: t).length + 1) (c :: t)
      (by simp) (by simp) (fun d t' hdt => by cases hdt; exact h4)
    simpa using this
  have hB : charP '#' (c :: t) = none := by simp [charP, h2]
  have hC : tagP "@version".toList (c :: t) = none := by
    have : ('@' == c) = false := by
      simp [Ne.symm h3]
    simp [tagP, List.isPrefixOf, this]
  have hD : tagP "@implicitweights".toList (c :: t) = none := by
    have : ('@' == c) = false := by
      simp [Ne.symm h3]
    simp [tagP, List.isPrefixOf, this]
  have hE : parse_row (c :: t) = none := by
    simp only [parse_row, hhead, hterm]
  simp only [tableLine, altP, valueP, mapP, alt1, hs0, hB, hC, hD, hE]

/-- C6: a data row is accepted only when, after the sort-key brackets, it
ends with a `#`-started terminal comment and a newline (the remainder after
the brackets decomposes as spaces, `#`, a nonempty newline-free comment
body, `\n`); and a table text beginning with a data row whose bracket part
parses but which lacks such a terminal comment fails to parse entirely. -/
theorem c6_row_requires_terminal_comment :
    (∀ (i : List Char) (r : List Char × List CollationElement) (rest : List Char),
      parse_row i = some (r, rest) →
      ∃ j sp cmt, rowHead i = some (r, j) ∧
        j = sp ++ '#' :: (cmt ++ '\n' :: rest) ∧
        (∀ c ∈ sp, c = ' ') ∧ cmt ≠ [] ∧ '\n' ∉ cmt) ∧
    (∀ (i : List Char) (r : List Char × List CollationElement) (j : List Char),
      rowHead i = some (r, j) → rowTerm j = none →
      tableFrom i = none) := by
  constructor
  · intro i r rest h
    unfold parse_row at h
    split at h
    · cases h
    rename_i r' j hhead
    split at h
    · cases h
    rename_i u j' hterm
    injection h with hpair
    injection hpair with hr hrest
    obtain ⟨sp, cmt, hshape, hsp, hne, hnin⟩ := rowTerm_shape hterm
    refine ⟨j, sp, cmt, ?_, ?_, hsp, hne, hnin⟩
    · rw [← hr]
      exact hhead
    · rw [← hrest]
      exact hshape
  · intro i r j hhead hterm
    have hline := tableLine_none hhead hterm
    simp only [tableFrom, allConsumingP, many1P, hline]

/-- Witness for C6: a well-formed row decomposes as required, and the same
row without its terminal comment makes the whole table parse fail. -/
theorem c6_witness :
    parse_row "0041;[.0002.0003.0001] # A\n".toList
        = some ((['A'], [⟨false, 2, 3, 1⟩]), []) ∧
      (∃ j sp cmt,
        rowHead "0041;[.0002.0003.0001] # A\n".toList
            = some ((['A'], [⟨false, 2, 3, 1⟩]), j) ∧
          j = sp ++ '#' :: (cmt ++ '\n' :: []) ∧
          (∀ c ∈ sp, c = ' ') ∧ cmt ≠ [] ∧ '\n' ∉ cmt) ∧
      rowHead "0041;[.0002.0003.0001]\n".toList
          = some ((['A'], [⟨false, 2, 3, 1⟩]), ['\n']) ∧
      rowTerm ['\n'] = none ∧
      tableFrom "0041;[.0002.0003.0001]\n".toList = none :=
  ⟨by decide,
    c6_row_requires_terminal_comment.1 _ (['A'], [⟨false, 2, 3, 1⟩]) [] (by decide),
    by decide, by decide,
    c6_row_requires_terminal_comment.2 _ (['A'], [⟨false, 2, 3, 1⟩]) ['\n']
      (by decide) (by decide)⟩
